import Mathlib

/-!
Shallow embedding of `src/fractional-core.js` (class `FractionalCore`) from the
FractonicMind/FractionalCore repository.

Modelling conventions:
- JavaScript strings are sequences of UTF-16 code units; encode/decode operate
  on character codes (`charCodeAt` / `fromCharCode`), so text is modelled as
  `List ℕ` of code units and the decoder returns the list of decoded codes.
- JavaScript numbers are modelled as `ℚ`.  Every catalog expression value is
  produced by arithmetic that is exact in IEEE double precision (square roots
  of perfect squares, small integer arithmetic), except `0.1*10`, whose double
  value is `1 + 2⁻⁵²·ε` with `ε < 1`; the deviation (< 1e-15) is far below the
  `1e-4` verification tolerance, so every `verify` outcome in this file agrees
  with the JavaScript float semantics.  The source's literal `0.0001` is the
  double nearest 1/10000; no comparison in this development lands within
  1e-15 of that boundary, so `1/10000 : ℚ` is a faithful model.
- `console.log` output is ignored; the mutable instance fields
  (`covenantAccepted`, `institutionId`, `verificationCount`) are modelled by
  the explicit state type `FCState`, and each method that reads or writes them
  has a state-passing variant (`encodeS`, `verifyS`, `decodeS`,
  `generateIdentitySetS`, `acceptCovenant`) returning `Except String` for the
  `throw new Error(...)` paths.  The value-level behaviour after the covenant
  check is factored into the pure functions `encode`, `verify`, `decode`,
  `generateIdentitySet`.
-/

namespace FractionalCore

/-- One catalog entry: the expression text and the (exact) value of its
`value()` closure.  The `latex` and `note` fields of the source objects are
never read by any operation and are omitted. -/
structure Fraction where
  expr : String
  value : ℚ
deriving DecidableEq, Repr

/-!
Arithmetic helpers.  The `Rat` operations shipped by Batteries are marked
irreducible, which blocks kernel evaluation inside `decide`; the closures of
the catalog are therefore modelled with the following numerically identical
operations built from `Rat.divInt`, and bridging lemmas below prove each one
equal to the corresponding Mathlib operation on `ℚ`.
-/

/-- Embedding of an integer literal into `ℚ`. -/
def intQ (n : ℤ) : ℚ := Rat.divInt n 1

/-- Rational addition (equal to `a + b`, see `qAdd_eq`). -/
def qAdd (a b : ℚ) : ℚ := Rat.divInt (a.num * b.den + b.num * a.den) (a.den * b.den)

/-- Rational subtraction (equal to `a - b`, see `qSub_eq`). -/
def qSub (a b : ℚ) : ℚ := Rat.divInt (a.num * b.den - b.num * a.den) (a.den * b.den)

/-- Rational multiplication (equal to `a * b`, see `qMul_eq`). -/
def qMul (a b : ℚ) : ℚ := Rat.divInt (a.num * b.num) (a.den * b.den)

/-- Rational division (equal to `a / b`, see `qDiv_eq`). -/
def qDiv (a b : ℚ) : ℚ := Rat.divInt (a.num * b.den) (a.den * b.num)

/-- Absolute value (`Math.abs`; equal to `|q|`, see `qAbs_eq`). -/
def qAbs (q : ℚ) : ℚ := Rat.divInt q.num.natAbs q.den

/-- Natural power (`Math.pow` on a natural exponent). -/
def qPow (q : ℚ) : ℕ → ℚ
  | 0 => intQ 1
  | n + 1 => qMul (qPow q n) q

/-- Strict comparison on `ℚ` as a boolean (equal to `decide (a < b)`, see
`qLt_iff`). -/
def qLt (a b : ℚ) : Bool := Rat.blt a b

/-- Integer square root by bounded search; `Math.sqrt` returns exactly this
value on the perfect squares (1, 4, 9, 16, 25, 36) used in the catalog. -/
def sqrtNat (n : ℕ) : ℕ :=
  ((List.range (n + 1)).filter (fun k => k * k ≤ n)).foldl max 0

/-- Value of `Math.sqrt` on the perfect squares used by the catalog, as `ℚ`. -/
def sqrtQ (n : ℕ) : ℚ := intQ (sqrtNat n)

/-- The source's helper `factorial(n)`: `n === 0 ? 1 : n * factorial(n - 1)`. -/
def factorial : ℕ → ℕ
  | 0 => 1
  | n + 1 => (n + 1) * factorial n

/-- The 16 entries of `getStandardFractions()`, in source order, each paired
with the exact value of its `value()` closure (the decimal literals `0.25`
and `0.1` are the rationals 25/100 and 1/10; see the header note on floats). -/
def getStandardFractions : List Fraction :=
  [ ⟨"√1", sqrtQ 1⟩,
    ⟨"0!", intQ (factorial 0)⟩,
    ⟨"|−1|", qAbs (intQ (-1))⟩,
    ⟨"7^0", qPow (intQ 7) 0⟩,
    ⟨"(2+2)/4", qDiv (qAdd (intQ 2) (intQ 2)) (intQ 4)⟩,
    ⟨"1/1", qDiv (intQ 1) (intQ 1)⟩,
    ⟨"2-1", qSub (intQ 2) (intQ 1)⟩,
    ⟨"√4/2", qDiv (sqrtQ 4) (intQ 2)⟩,
    ⟨"(3-1)/2", qDiv (qSub (intQ 3) (intQ 1)) (intQ 2)⟩,
    ⟨"√9/3", qDiv (sqrtQ 9) (intQ 3)⟩,
    ⟨"0.25*4", qMul (mkRat 25 100) (intQ 4)⟩,
    ⟨"0.1*10", qMul (mkRat 1 10) (intQ 10)⟩,
    ⟨"√16/4", qDiv (sqrtQ 16) (intQ 4)⟩,
    ⟨"√25/5", qDiv (sqrtQ 25) (intQ 5)⟩,
    ⟨"(6-4)/2", qDiv (qSub (intQ 6) (intQ 4)) (intQ 2)⟩,
    ⟨"√36/6", qDiv (sqrtQ 36) (intQ 6)⟩ ]

/-- The 5 entries of `getAdvancedFractions()`, in source order; each `value()`
closure returns exactly 1 (`() => 1` or `Math.exp(Math.log(1)) = e⁰ = 1`). -/
def getAdvancedFractions : List Fraction :=
  [ ⟨"∫(dx)", intQ 1⟩,
    ⟨"lim(x→1) x", intQ 1⟩,
    ⟨"sin²θ + cos²θ", intQ 1⟩,
    ⟨"e^(ln1)", intQ 1⟩,
    ⟨"det(I)", intQ 1⟩ ]

/-- The verification tolerance hard-coded in `verify`: the literal `0.0001`. -/
def tolerance : ℚ := mkRat 1 10000

/-- Pure value of `verify(expression, expectedValue)` (after the covenant
check): look the text up in `getStandardFractions()` by exact string equality
(`f.expr === expression`); on a match compare
`Math.abs(result - expectedValue) < 0.0001`, otherwise return false. -/
def verify (expression : String) (expectedValue : ℚ) : Bool :=
  match getStandardFractions.find? (fun f => decide (f.expr = expression)) with
  | some f => qLt (qAbs (qSub f.value expectedValue)) tolerance
  | none => false

/-- Binary digits of `n`, most significant first (`Nat.toString(2)` without
padding), by fuel-bounded halving; `binAux n n` is fully evaluated because the
argument at least halves at each of the `n` available steps. -/
def binAux : ℕ → ℕ → List Bool
  | 0, _ => []
  | _ + 1, 0 => []
  | fuel + 1, n + 1 => binAux fuel ((n + 1) / 2) ++ [decide ((n + 1) % 2 = 1)]

/-- The JavaScript `c.toString(2)`: binary digits MSB-first, with `0` rendered
as the single digit `0`. -/
def jsToBinary (c : ℕ) : List Bool :=
  if c = 0 then [false] else binAux c c

/-- The JavaScript `.padStart(8, '0')`: left-pad to length (at least) 8. -/
def padStart8 (l : List Bool) : List Bool :=
  List.replicate (8 - l.length) false ++ l

/-- Bit block of one character: `char.charCodeAt(0).toString(2).padStart(8, '0')`. -/
def charBits8 (c : ℕ) : List Bool := padStart8 (jsToBinary c)

/-- The full bit string of `encode`: per-character 8-bit blocks joined in
order (`text.split('').map(...).join('')`). -/
def textToBinary (text : List ℕ) : List Bool :=
  (text.map charBits8).flatten

/-- A default `Fraction`; the catalog lookups in the source are always in
range, so this value is never produced. -/
def defaultFraction : Fraction := ⟨"", 0⟩

/-- The encoding loop of `encode`: a `'1'` bit takes
`fractions[fractionIndex % fractions.length].expr` and advances
`fractionIndex`; a `'0'` bit emits the literal `"0"`. -/
def encodeBits (fractions : List Fraction) : List Bool → ℕ → List String
  | [], _ => []
  | true :: rest, fractionIndex =>
      (fractions.getD (fractionIndex % fractions.length) defaultFraction).expr ::
        encodeBits fractions rest (fractionIndex + 1)
  | false :: rest, fractionIndex =>
      "0" :: encodeBits fractions rest fractionIndex

/-- Fuel-bounded slicing loop of `formatAsGrid`: take `width` cells per row.
With `width ≥ 1` a fuel of `encoded.length` is never exhausted, matching the
source loop `for (i = 0; i < encoded.length; i += width)`. -/
def gridAux (width : ℕ) : ℕ → List String → List (List String)
  | 0, _ => []
  | _ + 1, [] => []
  | fuel + 1, c :: cs => (c :: cs).take width :: gridAux width fuel ((c :: cs).drop width)

/-- The source helper `formatAsGrid(encoded, width)`. -/
def formatAsGrid (encoded : List String) (width : ℕ) : List (List String) :=
  gridAux width encoded.length encoded

/-- Pure value of `encode(text, useAdvanced)` (after the covenant check):
binary expansion, expression substitution for 1-bits with a cycling fraction
index starting at 0, then reshaping into rows of width 8. -/
def encode (text : List ℕ) (useAdvanced : Bool) : List (List String) :=
  let fractions :=
    if useAdvanced then getStandardFractions ++ getAdvancedFractions
    else getStandardFractions
  formatAsGrid (encodeBits fractions (textToBinary text) 0) 8

/-- Bit recovered from one grid cell in `decode`: the literal `"0"` gives bit
0, any other cell gives bit 1 exactly when `verify(cell)` (expected value 1)
succeeds, and bit 0 otherwise. -/
def cellToBit (cell : String) : Bool :=
  if cell = "0" then false else verify cell 1

/-- Fuel-bounded slicing of the recovered bit string into 8-bit groups,
mirroring the source loop `for (i = 0; i < binary.length; i += 8)`. -/
def chunks8Aux : ℕ → List Bool → List (List Bool)
  | 0, _ => []
  | _ + 1, [] => []
  | fuel + 1, b :: bs => (b :: bs).take 8 :: chunks8Aux fuel ((b :: bs).drop 8)

/-- All slices `binary.slice(i, i + 8)` visited by the decode loop. -/
def chunks8 (l : List Bool) : List (List Bool) := chunks8Aux l.length l

/-- The JavaScript `parseInt(byte, 2)` on a string of binary digits. -/
def bitsToNat (bits : List Bool) : ℕ :=
  bits.foldl (fun acc b => 2 * acc + (if b then 1 else 0)) 0

/-- Byte extraction of `decode`: keep only the slices of full length 8
(`if (byte.length === 8)`), convert each to a character code. -/
def decodeBytes (bin : List Bool) : List ℕ :=
  (chunks8 bin).filterMap (fun byte =>
    if byte.length = 8 then some (bitsToNat byte) else none)

/-- Pure value of `decode(encodedGrid)` (after the covenant check): flatten
the grid, map every cell to a bit, group into bytes, convert to codes. -/
def decode (encodedGrid : List (List String)) : List ℕ :=
  decodeBytes (encodedGrid.flatten.map cellToBit)

/-- One step of the linear congruential generator in `generateIdentitySet`:
`seed = (seed * 9301 + 49297) % 233280`. -/
def lcgNext (seed : ℕ) : ℕ := (seed * 9301 + 49297) % 233280

/-- The selection loop of `generateIdentitySet`: advance the seed, then pick
`allFractions[seed % allFractions.length]`, `setSize` times. -/
def identityAux (allFractions : List Fraction) : ℕ → ℕ → List Fraction
  | _, 0 => []
  | seed, k + 1 =>
      let seed' := lcgNext seed
      allFractions.getD (seed' % allFractions.length) defaultFraction ::
        identityAux allFractions seed' k

/-- Pure value of `generateIdentitySet(name, setSize)` (after the covenant
check): seed from the sum of the character codes of `name`, then LCG-driven
selection from the 21 combined standard+advanced fractions. -/
def generateIdentitySet (name : List ℕ) (setSize : ℕ) : List Fraction :=
  identityAux (getStandardFractions ++ getAdvancedFractions)
    (name.foldl (fun acc c => acc + c) 0) setSize

/-! State-passing layer: the mutable instance fields and the covenant gate. -/

/-- The mutable instance fields of a `FractionalCore` object. -/
structure FCState where
  covenantAccepted : Bool
  institutionId : Option String
  verificationCount : ℕ
deriving DecidableEq, Repr

/-- The constructor: `covenantAccepted = false`, `institutionId = null`,
`verificationCount = 0`. -/
def initState : FCState := ⟨false, none, 0⟩

/-- The method `acceptCovenant(institutionId, covenantAgreement)`; the
agreement is modelled by the truthiness of its `humanitarianCommitment`
field.  Throws unless the commitment is truthy; otherwise records acceptance
and the institution and returns `true`. -/
def acceptCovenant (st : FCState) (institutionId : String)
    (humanitarianCommitment : Bool) : Except String (FCState × Bool) :=
  if humanitarianCommitment = false then
    .error "Covenant requires commitment to humanity's betterment"
  else
    .ok ({ st with covenantAccepted := true, institutionId := some institutionId }, true)

/-- The body of `logVerification`: increments `this.verificationCount` (the
console output and the returned metadata object are not read by any caller in
the core). -/
def logVerification (st : FCState) : FCState :=
  { st with verificationCount := st.verificationCount + 1 }

/-- The method `encode` with its state effects: covenant gate, then one
`logVerification` call before returning the grid. -/
def encodeS (st : FCState) (text : List ℕ) (useAdvanced : Bool) :
    Except String (FCState × List (List String)) :=
  if st.covenantAccepted = false then
    .error "Must accept Memorial Covenant before encoding"
  else
    .ok (logVerification st, encode text useAdvanced)

/-- The body of `verify` after its covenant check: on a catalog match,
`logVerification` runs and the tolerance comparison is returned; on a miss
the state is untouched and the result is false. -/
def verifyStep (st : FCState) (expression : String) (expectedValue : ℚ) :
    FCState × Bool :=
  match getStandardFractions.find? (fun f => decide (f.expr = expression)) with
  | some f => (logVerification st, qLt (qAbs (qSub f.value expectedValue)) tolerance)
  | none => (st, false)

/-- The method `verify` with its state effects. -/
def verifyS (st : FCState) (expression : String) (expectedValue : ℚ) :
    Except String (FCState × Bool) :=
  if st.covenantAccepted = false then
    .error "Must accept Memorial Covenant before verification"
  else
    .ok (verifyStep st expression expectedValue)

/-- The cell loop of `decode` with state threading: every non-`"0"` cell goes
through `this.verify(cell)`, which bumps the count exactly on catalog
matches. -/
def decodeCellsS (st : FCState) : List String → FCState × List Bool
  | [] => (st, [])
  | c :: rest =>
      if c = "0" then
        let p := decodeCellsS st rest
        (p.1, false :: p.2)
      else
        let q := verifyStep st c 1
        let p := decodeCellsS q.1 rest
        (p.1, q.2 :: p.2)

/-- Number of cells of a decode pass that trigger a `logVerification` call
inside `this.verify`: the non-`"0"` cells whose text matches a standard
catalog entry. -/
def matchedCellCount (cells : List String) : ℕ :=
  (cells.filter (fun c =>
    decide (¬ c = "0") &&
      (getStandardFractions.find? (fun f => decide (f.expr = c))).isSome)).length

/-- The method `decode` with its state effects: covenant gate, per-cell
verification, then one final `logVerification` call before returning. -/
def decodeS (st : FCState) (encodedGrid : List (List String)) :
    Except String (FCState × List ℕ) :=
  if st.covenantAccepted = false then
    .error "Must accept Memorial Covenant before decoding"
  else
    let p := decodeCellsS st encodedGrid.flatten
    .ok (logVerification p.1, decodeBytes p.2)

/-- The method `generateIdentitySet` with its state effects: covenant gate
only; the selection loop touches no instance field. -/
def generateIdentitySetS (st : FCState) (name : List ℕ) (setSize : ℕ) :
    Except String (FCState × List Fraction) :=
  if st.covenantAccepted = false then
    .error "Must accept Memorial Covenant before identity generation"
  else
    .ok (st, generateIdentitySet name setSize)

/-! Bridging lemmas: the computable arithmetic helpers agree with Mathlib's
field operations on `ℚ`, so the catalog values and the tolerance comparison
are exactly the rational arithmetic of the source closures. -/

theorem intQ_eq (n : ℤ) : intQ n = (n : ℚ) := by
  simp [intQ, Rat.divInt_eq_div]

theorem num_cast_eq (a : ℚ) : (a.num : ℚ) = a * a.den :=
  (div_eq_iff (Nat.cast_ne_zero.mpr a.den_nz)).mp (Rat.num_div_den a)

theorem qAdd_eq (a b : ℚ) : qAdd a b = a + b := by
  have ha : (a.den : ℚ) ≠ 0 := Nat.cast_ne_zero.mpr a.den_nz
  have hb : (b.den : ℚ) ≠ 0 := Nat.cast_ne_zero.mpr b.den_nz
  rw [qAdd, Rat.divInt_eq_div]
  push_cast
  rw [div_eq_iff (mul_ne_zero ha hb), num_cast_eq a, num_cast_eq b]
  ring

theorem qSub_eq (a b : ℚ) : qSub a b = a - b := by
  have ha : (a.den : ℚ) ≠ 0 := Nat.cast_ne_zero.mpr a.den_nz
  have hb : (b.den : ℚ) ≠ 0 := Nat.cast_ne_zero.mpr b.den_nz
  rw [qSub, Rat.divInt_eq_div]
  push_cast
  rw [div_eq_iff (mul_ne_zero ha hb), num_cast_eq a, num_cast_eq b]
  ring

theorem qMul_eq (a b : ℚ) : qMul a b = a * b := by
  have ha : (a.den : ℚ) ≠ 0 := Nat.cast_ne_zero.mpr a.den_nz
  have hb : (b.den : ℚ) ≠ 0 := Nat.cast_ne_zero.mpr b.den_nz
  rw [qMul, Rat.divInt_eq_div]
  push_cast
  rw [div_eq_iff (mul_ne_zero ha hb), num_cast_eq a, num_cast_eq b]
  ring

theorem qDiv_eq (a b : ℚ) : qDiv a b = a / b := by
  rcases eq_or_ne b 0 with hb0 | hb0
  · subst hb0
    simp [qDiv, Rat.divInt_eq_div]
  · have ha : (a.den : ℚ) ≠ 0 := Nat.cast_ne_zero.mpr a.den_nz
    have hb : (b.den : ℚ) ≠ 0 := Nat.cast_ne_zero.mpr b.den_nz
    have hbn : (b.num : ℚ) ≠ 0 := by
      rw [num_cast_eq b]
      exact mul_ne_zero hb0 hb
    rw [qDiv, Rat.divInt_eq_div]
    push_cast
    rw [div_eq_div_iff (mul_ne_zero ha hbn) hb0, num_cast_eq a, num_cast_eq b]
    ring

theorem qAbs_eq (q : ℚ) : qAbs q = |q| := by
  have hd : (0 : ℚ) ≤ (q.den : ℚ) := Nat.cast_nonneg q.den
  rw [qAbs, Rat.divInt_eq_div]
  push_cast [Int.cast_natAbs]
  conv_rhs => rw [← Rat.num_div_den q]
  rw [abs_div, abs_of_nonneg hd]

theorem qLt_iff (a b : ℚ) : qLt a b = true ↔ a < b := Iff.rfl

theorem tolerance_eq : tolerance = 1 / 10000 := by
  rw [tolerance, Rat.mkRat_eq_divInt, Rat.divInt_eq_div]
  norm_num

/-- Semantics of `verify` in terms of Mathlib's operations: it succeeds
exactly on a standard-catalog match whose value is within the hard-coded
tolerance of the expected value. -/
theorem verify_iff (e : String) (v : ℚ) :
    verify e v = true ↔
      ∃ f, getStandardFractions.find? (fun f => decide (f.expr = e)) = some f ∧
        |f.value - v| < 1 / 10000 := by
  unfold verify
  rcases h : getStandardFractions.find? (fun f => decide (f.expr = e)) with _ | f
  · simp [h]
  · simp only [h, Option.some.injEq]
    rw [qLt_iff, qSub_eq, qAbs_eq, tolerance_eq]
    constructor
    · exact fun hv => ⟨f, rfl, hv⟩
    · rintro ⟨g, hg, hv⟩
      cases hg
      exact hv

/-! Structural lemmas about the codec. -/

/-- Every 8-bit character block of a code below 256 has length exactly 8 and
converts back to the original code. -/
theorem charBits8_spec_fin :
    ∀ c : Fin 256, (charBits8 c.val).length = 8 ∧ bitsToNat (charBits8 c.val) = c.val := by
  set_option maxRecDepth 8000 in decide

theorem charBits8_length {c : ℕ} (h : c < 256) : (charBits8 c).length = 8 :=
  (charBits8_spec_fin ⟨c, h⟩).1

theorem bitsToNat_charBits8 {c : ℕ} (h : c < 256) : bitsToNat (charBits8 c) = c :=
  (charBits8_spec_fin ⟨c, h⟩).2

/-- Every standard-catalog expression verifies against expected value 1 and is
distinct from the literal `"0"`. -/
theorem standard_pool_good :
    ∀ f ∈ getStandardFractions, verify f.expr 1 = true ∧ f.expr ≠ "0" := by
  decide

theorem standard_pool_cellToBit :
    ∀ f ∈ getStandardFractions, cellToBit f.expr = true := by
  intro f hf
  obtain ⟨hv, hne⟩ := standard_pool_good f hf
  rw [cellToBit, if_neg hne, hv]

theorem encodeBits_length (fractions : List Fraction) :
    ∀ (bits : List Bool) (i : ℕ), (encodeBits fractions bits i).length = bits.length := by
  intro bits
  induction bits with
  | nil => intro i; rfl
  | cons b rest ih =>
      intro i
      cases b <;> simp [encodeBits, ih]

theorem encodeBits_cells (fractions : List Fraction) (hl : 0 < fractions.length) :
    ∀ (bits : List Bool) (i : ℕ) (cell : String), cell ∈ encodeBits fractions bits i →
      cell = "0" ∨ ∃ f ∈ fractions, cell = f.expr := by
  intro bits
  induction bits with
  | nil => intro i cell hc; cases hc
  | cons b rest ih =>
      intro i cell hc
      cases b with
      | false =>
          rcases List.mem_cons.mp hc with h0 | hrest
          · exact Or.inl h0
          · exact ih i cell hrest
      | true =>
          rcases List.mem_cons.mp hc with h0 | hrest
          · refine Or.inr ?_
            have hidx : i % fractions.length < fractions.length := Nat.mod_lt i hl
            refine ⟨fractions[i % fractions.length], List.getElem_mem hidx, ?_⟩
            rw [h0, List.getD_eq_getElem fractions defaultFraction hidx]
          · exact ih (i + 1) cell hrest

theorem encodeBits_map_cellToBit (fractions : List Fraction) (hl : 0 < fractions.length)
    (hf : ∀ f ∈ fractions, cellToBit f.expr = true) :
    ∀ (bits : List Bool) (i : ℕ), (encodeBits fractions bits i).map cellToBit = bits := by
  intro bits
  induction bits with
  | nil => intro i; rfl
  | cons b rest ih =>
      intro i
      cases b with
      | false =>
          have h0 : cellToBit "0" = false := rfl
          simp only [encodeBits, List.map_cons, h0, ih i]
      | true =>
          have hidx : i % fractions.length < fractions.length := Nat.mod_lt i hl
          have hmem : fractions[i % fractions.length] ∈ fractions := List.getElem_mem hidx
          have hcell :
              cellToBit (fractions.getD (i % fractions.length) defaultFraction).expr = true := by
            rw [List.getD_eq_getElem fractions defaultFraction hidx]
            exact hf _ hmem
          simp only [encodeBits, List.map_cons, hcell, ih (i + 1)]

theorem gridAux_flatten (w : ℕ) (hw : 0 < w) :
    ∀ (fuel : ℕ) (l : List String), l.length ≤ fuel → (gridAux w fuel l).flatten = l := by
  intro fuel
  induction fuel with
  | zero =>
      intro l hl
      rw [Nat.le_zero, List.length_eq_zero] at hl
      subst hl
      rfl
  | succ n ih =>
      intro l hl
      cases l with
      | nil => rfl
      | cons c cs =>
          have hdrop : ((c :: cs).drop w).length ≤ n := by
            rw [List.length_drop]
            simp only [List.length_cons] at hl ⊢
            omega
          calc (gridAux w (n + 1) (c :: cs)).flatten
              = (c :: cs).take w ++ (gridAux w n ((c :: cs).drop w)).flatten := by
                rw [gridAux, List.flatten_cons]
            _ = (c :: cs).take w ++ (c :: cs).drop w := by rw [ih _ hdrop]
            _ = c :: cs := List.take_append_drop w (c :: cs)

theorem formatAsGrid_flatten (l : List String) : (formatAsGrid l 8).flatten = l :=
  gridAux_flatten 8 (by omega) l.length l le_rfl

theorem chunks8Aux_nil : ∀ fuel, chunks8Aux fuel [] = [] := by
  intro fuel
  cases fuel <;> rfl

theorem chunks8Aux_irrel :
    ∀ (fuel1 : ℕ) (fuel2 : ℕ) (l : List Bool), l.length ≤ fuel1 → l.length ≤ fuel2 →
      chunks8Aux fuel1 l = chunks8Aux fuel2 l := by
  intro fuel1
  induction fuel1 with
  | zero =>
      intro fuel2 l h1 _
      rw [Nat.le_zero, List.length_eq_zero] at h1
      subst h1
      rw [chunks8Aux_nil, chunks8Aux_nil]
  | succ n ih =>
      intro fuel2 l h1 h2
      cases l with
      | nil => rw [chunks8Aux_nil, chunks8Aux_nil]
      | cons b bs =>
          cases fuel2 with
          | zero => simp at h2
          | succ m =>
              have hd : ((b :: bs).drop 8).length ≤ n := by
                rw [List.length_drop]
                simp only [List.length_cons] at h1 ⊢
                omega
              have hd2 : ((b :: bs).drop 8).length ≤ m := by
                rw [List.length_drop]
                simp only [List.length_cons] at h2 ⊢
                omega
              rw [chunks8Aux, chunks8Aux, ih m _ hd hd2]

theorem chunks8_cons8 (block rest : List Bool) (h : block.length = 8) :
    chunks8 (block ++ rest) = block :: chunks8 rest := by
  cases block with
  | nil => simp at h
  | cons a bl =>
      have htake : ((a :: bl) ++ rest).take 8 = a :: bl := by
        rw [← h]
        exact List.take_left (a :: bl) rest
      have hdrop : ((a :: bl) ++ rest).drop 8 = rest := by
        rw [← h]
        exact List.drop_left (a :: bl) rest
      have hlen : ((a :: bl) ++ rest).length = (bl ++ rest).length + 1 := by
        simp
      show chunks8Aux ((a :: bl) ++ rest).length ((a :: bl) ++ rest) = _
      rw [hlen]
      show ((a :: (bl ++ rest)).take 8) ::
          chunks8Aux (bl ++ rest).length ((a :: (bl ++ rest)).drop 8) = _
      have htake' : (a :: (bl ++ rest)).take 8 = a :: bl := htake
      have hdrop' : (a :: (bl ++ rest)).drop 8 = rest := hdrop
      rw [htake', hdrop']
      have hrest : rest.length ≤ (bl ++ rest).length := by
        simp
      rw [chunks8Aux_irrel (bl ++ rest).length rest.length rest hrest le_rfl]
      rfl

theorem decodeBytes_blocks :
    ∀ blocks : List (List Bool), (∀ b ∈ blocks, b.length = 8) →
      decodeBytes blocks.flatten = blocks.map bitsToNat := by
  intro blocks
  induction blocks with
  | nil => intro _; rfl
  | cons b bs ih =>
      intro h
      have hb : b.length = 8 := h b (List.mem_cons_self b bs)
      have hbs : ∀ x ∈ bs, x.length = 8 := fun x hx => h x (List.mem_cons_of_mem b hx)
      rw [List.flatten_cons, decodeBytes, chunks8_cons8 b bs.flatten hb,
        List.filterMap_cons, if_pos hb, List.map_cons]
      exact congrArg (fun t => bitsToNat b :: t) (ih hbs)

theorem textToBinary_blocks_length (text : List ℕ) (h : ∀ c ∈ text, c < 256) :
    ∀ b ∈ text.map charBits8, b.length = 8 := by
  intro b hb
  rcases List.mem_map.mp hb with ⟨c, hc, rfl⟩
  exact charBits8_length (h c hc)

theorem textToBinary_length (text : List ℕ) (h : ∀ c ∈ text, c < 256) :
    (textToBinary text).length = 8 * text.length := by
  induction text with
  | nil => rfl
  | cons c cs ih =>
      have hc : c < 256 := h c (List.mem_cons_self c cs)
      have hcs : ∀ x ∈ cs, x < 256 := fun x hx => h x (List.mem_cons_of_mem c hx)
      rw [textToBinary, List.map_cons, List.flatten_cons, List.length_append,
        charBits8_length hc]
      rw [show (List.map charBits8 cs).flatten = textToBinary cs from rfl, ih hcs,
        List.length_cons]
      omega

theorem decode_encodeBits_standard (text : List ℕ) (h : ∀ c ∈ text, c < 256) :
    decode (formatAsGrid (encodeBits getStandardFractions (textToBinary text) 0) 8) = text := by
  rw [decode, formatAsGrid_flatten,
    encodeBits_map_cellToBit getStandardFractions (by decide) standard_pool_cellToBit,
    textToBinary, decodeBytes_blocks (text.map charBits8) (textToBinary_blocks_length text h),
    List.map_map]
  calc text.map (bitsToNat ∘ charBits8)
      = text.map id := List.map_congr_left (fun c hc => bitsToNat_charBits8 (h c hc))
    _ = text := List.map_id text

/-- Decoded byte count: incomplete trailing slices are filtered out, so the
output length is the flattened bit length divided by 8 (rounding down). -/
theorem decodeBytes_length_aux :
    ∀ (n : ℕ) (bin : List Bool), bin.length ≤ n → (decodeBytes bin).length = bin.length / 8 := by
  intro n
  induction n with
  | zero =>
      intro bin hl
      rw [Nat.le_zero, List.length_eq_zero] at hl
      subst hl
      rfl
  | succ m ih =>
      intro bin hl
      cases bin with
      | nil => rfl
      | cons b bs =>
          have hchunk : chunks8 (b :: bs) =
              (b :: bs).take 8 :: chunks8Aux bs.length ((b :: bs).drop 8) := rfl
          have hdroplen : ((b :: bs).drop 8).length = (b :: bs).length - 8 :=
            List.length_drop 8 (b :: bs)
          have hdrople : ((b :: bs).drop 8).length ≤ bs.length := by
            rw [hdroplen]
            simp only [List.length_cons]
            omega
          have hrw : chunks8Aux bs.length ((b :: bs).drop 8) = chunks8 ((b :: bs).drop 8) :=
            chunks8Aux_irrel bs.length ((b :: bs).drop 8).length ((b :: bs).drop 8) hdrople le_rfl
          have hdriple2 : ((b :: bs).drop 8).length ≤ m := by
            rw [hdroplen]
            simp only [List.length_cons] at hl ⊢
            omega
          by_cases hge : 8 ≤ (b :: bs).length
          · have htake : ((b :: bs).take 8).length = 8 := by
              rw [List.length_take]
              omega
            rw [decodeBytes, hchunk, hrw, List.filterMap_cons, if_pos htake]
            have := ih ((b :: bs).drop 8) hdriple2
            rw [decodeBytes] at this
            calc (bitsToNat ((b :: bs).take 8) ::
                  (chunks8 ((b :: bs).drop 8)).filterMap (fun byte =>
                    if byte.length = 8 then some (bitsToNat byte) else none)).length
                = ((b :: bs).drop 8).length / 8 + 1 := by
                  rw [List.length_cons, this]
              _ = (b :: bs).length / 8 := by
                  rw [hdroplen, Nat.div_eq (b :: bs).length 8, if_pos ⟨by omega, hge⟩]
          · have hlt : (b :: bs).length < 8 := by omega
            have htake : ((b :: bs).take 8).length = (b :: bs).length := by
              rw [List.length_take]
              omega
            have htake8 : ¬ ((b :: bs).take 8).length = 8 := by omega
            have hdropnil : (b :: bs).drop 8 = [] := by
              rw [← List.length_eq_zero, hdroplen]
              omega
            rw [decodeBytes, hchunk, hrw, List.filterMap_cons, if_neg htake8, hdropnil]
            simp only [chunks8, List.length_nil, chunks8Aux_nil, List.filterMap_nil]
            rw [Nat.div_eq_of_lt hlt]

theorem decode_length (grid : List (List String)) :
    (decode grid).length = grid.flatten.length / 8 := by
  rw [decode, decodeBytes_length_aux (grid.flatten.map cellToBit).length _ le_rfl,
    List.length_map]

/-! State-effect lemmas. -/

theorem verifyStep_spec (st : FCState) (e : String) (v : ℚ) :
    verifyStep st e v =
      ({ st with verificationCount := st.verificationCount +
        (if (getStandardFractions.find? (fun f => decide (f.expr = e))).isSome = true
          then 1 else 0) }, verify e v) := by
  rcases hf : getStandardFractions.find? (fun f => decide (f.expr = e)) with _ | f
  · rw [verifyStep, verify, hf]
    rfl
  · rw [verifyStep, verify, hf]
    rfl

theorem matchedCellCount_cons (c : String) (rest : List String) :
    matchedCellCount (c :: rest) =
      (if (decide (¬ c = "0") &&
          (getStandardFractions.find? (fun f => decide (f.expr = c))).isSome) = true
        then 1 else 0) + matchedCellCount rest := by
  rw [matchedCellCount, matchedCellCount, List.filter_cons]
  by_cases hp : (decide (¬ c = "0") &&
      (getStandardFractions.find? (fun f => decide (f.expr = c))).isSome) = true
  · rw [if_pos hp, if_pos hp, List.length_cons]
    omega
  · rw [if_neg hp, if_neg hp]
    omega

theorem decodeCellsS_spec :
    ∀ (cells : List String) (st : FCState), decodeCellsS st cells =
      ({ st with verificationCount := st.verificationCount + matchedCellCount cells },
        cells.map cellToBit) := by
  intro cells
  induction cells with
  | nil => intro st; rfl
  | cons c rest ih =>
      intro st
      rw [matchedCellCount_cons]
      by_cases hc : c = "0"
      · have hnum : (if (decide (¬ c = "0") &&
            (getStandardFractions.find? (fun f => decide (f.expr = c))).isSome) = true
            then 1 else 0) = 0 := by
          subst hc
          rfl
        rw [hnum, Nat.zero_add]
        simp only [decodeCellsS, if_pos hc, ih st, List.map_cons]
        rw [show cellToBit c = false by rw [cellToBit, if_pos hc]]
      · have hnum : (if (decide (¬ c = "0") &&
            (getStandardFractions.find? (fun f => decide (f.expr = c))).isSome) = true
            then 1 else 0) =
            (if (getStandardFractions.find? (fun f => decide (f.expr = c))).isSome = true
            then 1 else 0) := by
          rw [decide_eq_true hc, Bool.true_and]
        rw [hnum]
        simp only [decodeCellsS, if_neg hc, verifyStep_spec st c 1, ih, List.map_cons]
        rw [show cellToBit c = verify c 1 by rw [cellToBit, if_neg hc], Nat.add_assoc]

/-! Claim theorems. -/

/-- C1: for every printable-ASCII string `s`, decoding the grid produced by
encoding `s` (default expression pool, row width 8) returns `s` unchanged:
`decode(encode(s)) == s`. -/
theorem claim1_roundtrip (s : List ℕ) (h : ∀ c ∈ s, 32 ≤ c ∧ c ≤ 126) :
    decode (encode s false) = s := by
  have h' : ∀ c ∈ s, c < 256 := by
    intro c hc
    have := h c hc
    omega
  exact decode_encodeBits_standard s h'

/-- Witness for C1: the round trip on the concrete string "FC". -/
theorem claim1_roundtrip_witness :
    (∀ c ∈ ([70, 67] : List ℕ), 32 ≤ c ∧ c ≤ 126) ∧ decode (encode [70, 67] false) = [70, 67] :=
  ⟨by decide, claim1_roundtrip [70, 67] (by decide)⟩

/-- Counterexample for C2: take the valid grid `encode "A"` (code 65), replace
its non-zero cell `"√1"` by `"1-1"` (an expression evaluating to 0).  The
claim says decode must raise `AmbiguousCellError`; instead `decode` returns
normally with the wrong character code 1 (≠ 65): the failing cell is silently
coerced to bit 0. -/
theorem claim2_cex :
    encode [65] false = [["0", "√1", "0", "0", "0", "0", "0", "0!"]] ∧
    decode [["0", "1-1", "0", "0", "0", "0", "0", "0!"]] = [1] ∧ (1 : ℕ) ≠ 65 := by
  decide

/-- C2 (amended): during decode, every cell that is not the literal `"0"` and
fails verification against expected value 1 is silently mapped to bit 0 — the
code has no `AmbiguousCellError` path — so replacing one non-zero cell of a
valid grid with an expression evaluating to 0 makes `decode` return a wrong
character rather than raise. -/
theorem claim2_amended :
    (∀ cell : String, cell ≠ "0" → verify cell 1 = false → cellToBit cell = false) ∧
    decode [["0", "1-1", "0", "0", "0", "0", "0", "0!"]] = [1] := by
  constructor
  · intro cell hne hv
    rw [cellToBit, if_neg hne, hv]
  · decide

/-- Witness for C2 (amended): the tampered cell `"1-1"` is decoded as bit 0. -/
theorem claim2_amended_witness : cellToBit "1-1" = false :=
  claim2_amended.1 "1-1" (by decide) (by decide)

/-- Counterexample for C3: a grid of one cell (flattened length 1, not a
multiple of 8) does not make `decode` fail — the claim says it must raise
`DecodeError` — instead the trailing cell is silently dropped and `decode`
returns the empty string. -/
theorem claim3_cex :
    decode [["0"]] = [] ∧ ([["0"]] : List (List String)).flatten.length % 8 = 1 := by
  decide

/-- C3 (amended): `decode` never fails on misaligned grids; the trailing
cells beyond the largest multiple of 8 are silently dropped, so the output
length is always the flattened cell count divided by 8, rounding down. -/
theorem claim3_amended :
    (∀ grid : List (List String), (decode grid).length = grid.flatten.length / 8) ∧
    decode [["0"]] = [] :=
  ⟨decode_length, by decide⟩

theorem verify_sqrt2_false (v : ℚ) : verify "√2" v = false := by
  unfold verify
  rw [show getStandardFractions.find? (fun f => decide (f.expr = "√2")) = none from by decide]

/-- Counterexample for C4: the claim says `verify("√2", 1.41421356, 1e-4)`
returns true; in the code `"√2"` is not one of the 16 standard catalog
expressions, so `verify` returns false (and `verify` has no tolerance
parameter at all — the tolerance is the hard-coded constant 0.0001). -/
theorem claim4_cex : verify "√2" (141421356 / 100000000 : ℚ) = false :=
  verify_sqrt2_false (141421356 / 100000000 : ℚ)

/-- C4 (amended): `verify` has no caller-configurable tolerance parameter;
the tolerance is the hard-coded constant 1e-4, and `verify` returns the
tolerance comparison only for the 16 standard catalog expressions.  Since
`"√2"` is not in the catalog, `verify("√2", x)` is false for every expected
value `x` (both 1.41421356 and 1.5), while a catalog expression such as
`"√1"` verifies against 1. -/
theorem claim4_amended :
    tolerance = 1 / 10000 ∧ (∀ v : ℚ, verify "√2" v = false) ∧ verify "√1" 1 = true :=
  ⟨tolerance_eq, verify_sqrt2_false, by decide⟩

/-- C5: `generateIdentitySet` is deterministic — on any two covenant-accepted
instances (whatever their other instance state), the same `(name, size)` pair
yields the same sequence, namely the pure LCG-driven selection
`generateIdentitySet name size`; no random source is involved and the
instance state is left unchanged. -/
theorem claim5_deterministic (s1 s2 : FCState) (name : List ℕ) (size : ℕ)
    (h1 : s1.covenantAccepted = true) (h2 : s2.covenantAccepted = true) :
    generateIdentitySetS s1 name size = .ok (s1, generateIdentitySet name size) ∧
    generateIdentitySetS s2 name size = .ok (s2, generateIdentitySet name size) := by
  constructor
  · simp [generateIdentitySetS, h1]
  · simp [generateIdentitySetS, h2]

/-- Witness for C5: two calls with name "Alice" and size 8 on two different
covenant-accepted states return the same sequence. -/
theorem claim5_deterministic_witness :
    generateIdentitySetS ⟨true, none, 0⟩ [65, 108, 105, 99, 101] 8 =
      .ok (⟨true, none, 0⟩, generateIdentitySet [65, 108, 105, 99, 101] 8) ∧
    generateIdentitySetS ⟨true, some "MIT", 5⟩ [65, 108, 105, 99, 101] 8 =
      .ok (⟨true, some "MIT", 5⟩, generateIdentitySet [65, 108, 105, 99, 101] 8) :=
  claim5_deterministic ⟨true, none, 0⟩ ⟨true, some "MIT", 5⟩ [65, 108, 105, 99, 101] 8 rfl rfl

/-- Counterexample for C6: the claim quantifies over every input string, but
for the one-character string with code 256 (`"Ā"`, a legal UTF-16 code unit)
`toString(2)` yields 9 binary digits and `padStart(8)` does not truncate, so
the flattened grid has 9 cells, not `8 × 1`. -/
theorem claim6_cex :
    ((encode [256] false).flatten).length = 9 ∧ (9 : ℕ) ≠ 8 * ([256] : List ℕ).length := by
  decide

/-- C6 (amended): for every input string whose character codes are all below
256, the grid returned by `encode` flattens to exactly `8 × length(text)`
cells, every cell is either the literal `"0"` or the text of a pool
expression, and flattening the grid returns exactly the encoded cell
sequence (no truncation, no padding). -/
theorem claim6_amended (text : List ℕ) (adv : Bool) (h : ∀ c ∈ text, c < 256) :
    (encode text adv).flatten.length = 8 * text.length ∧
    (∀ cell ∈ (encode text adv).flatten, cell = "0" ∨
      ∃ f ∈ (if adv then getStandardFractions ++ getAdvancedFractions
        else getStandardFractions), cell = f.expr) ∧
    (encode text adv).flatten =
      encodeBits (if adv then getStandardFractions ++ getAdvancedFractions
        else getStandardFractions) (textToBinary text) 0 := by
  have hpool :
      0 < (if adv then getStandardFractions ++ getAdvancedFractions
        else getStandardFractions).length := by
    cases adv <;> decide
  have hflat : (encode text adv).flatten =
      encodeBits (if adv then getStandardFractions ++ getAdvancedFractions
        else getStandardFractions) (textToBinary text) 0 :=
    formatAsGrid_flatten _
  refine ⟨?_, ?_, hflat⟩
  · rw [hflat, encodeBits_length, textToBinary_length text h]
  · intro cell hc
    rw [hflat] at hc
    exact encodeBits_cells _ hpool _ 0 cell hc

/-- Witness for C6 (amended): the invariant evaluated on the string "FC". -/
theorem claim6_amended_witness :
    (∀ c ∈ ([70, 67] : List ℕ), c < 256) ∧
    ((encode [70, 67] false).flatten.length = 8 * ([70, 67] : List ℕ).length ∧
    (∀ cell ∈ (encode [70, 67] false).flatten, cell = "0" ∨
      ∃ f ∈ (if false then getStandardFractions ++ getAdvancedFractions
        else getStandardFractions), cell = f.expr) ∧
    (encode [70, 67] false).flatten =
      encodeBits (if false then getStandardFractions ++ getAdvancedFractions
        else getStandardFractions) (textToBinary [70, 67]) 0) :=
  ⟨by decide, claim6_amended [70, 67] false (by decide)⟩

/-- Counterexample for C7: the claim puts a non-zero Expression cell at
position 0 of row 1 of `encode("FC")`; the code places the literal `"0"`
there ("F" = 01000110 has bit 0 equal to 0, consistent with the claim's own
bit pattern but not with its cell positions). -/
theorem claim7_cex : ((encode [70, 67] false).getD 0 []).getD 0 "X" = "0" := by
  decide

/-- C7 (amended): `encode("FC")` with row width 8 produces a 2-row grid of 16
cells whose non-zero Expression cells occupy exactly positions 1, 5, 6 of
row 1 and positions 1, 6, 7 of row 2 — the bit pattern 0100011001000011
("F" = 01000110, "C" = 01000011) — with all other cells the literal `"0"`;
the six 1-bits consume the first six catalog expressions in cycling order. -/
theorem claim7_amended :
    encode [70, 67] false =
      [["0", "√1", "0", "0", "0", "0!", "|−1|", "0"],
       ["0", "7^0", "0", "0", "0", "0", "(2+2)/4", "1/1"]] := by
  decide

/-- Counterexample for C8: operations are not side-effect free — a single
`encode` call on a covenant-accepted instance increments the
`verificationCount` instance field (via `logVerification`), changing the
instance state. -/
theorem claim8_cex :
    encodeS ⟨true, none, 0⟩ [] false = .ok (⟨true, none, 1⟩, []) ∧
    FCState.mk true none 1 ≠ FCState.mk true none 0 :=
  ⟨rfl, by decide⟩

/-- C8 (amended): the result value of each core operation is a pure function
of its arguments plus the immutable catalog, but `encode`, `decode` and
`verify` are not side-effect free: `encode` increments the mutable
`verificationCount` field by exactly 1, `decode` by exactly one per
catalog-matched non-zero cell plus one final increment (so always at least
1), and `verify` by exactly 1 on a catalog match and 0 otherwise; only
`generateIdentitySet` leaves the instance state unchanged. -/
theorem claim8_amended (st : FCState) (h : st.covenantAccepted = true) (text : List ℕ)
    (adv : Bool) (g : List (List String)) (name : List ℕ) (k : ℕ) (e : String) (v : ℚ) :
    encodeS st text adv =
      .ok ({ st with verificationCount := st.verificationCount + 1 }, encode text adv) ∧
    generateIdentitySetS st name k = .ok (st, generateIdentitySet name k) ∧
    decodeS st g = .ok ({ st with verificationCount :=
      st.verificationCount + (matchedCellCount g.flatten + 1) }, decode g) ∧
    verifyS st e v = .ok ({ st with verificationCount := st.verificationCount +
      (if (getStandardFractions.find? (fun f => decide (f.expr = e))).isSome = true
        then 1 else 0) }, verify e v) := by
  refine ⟨?_, ?_, ?_, ?_⟩
  · simp [encodeS, h, logVerification]
  · simp [generateIdentitySetS, h]
  · simp only [decodeS, h, Bool.true_eq_false, if_false, decodeCellsS_spec g.flatten st,
      logVerification, decode]
    rw [show st.verificationCount + matchedCellCount g.flatten + 1 =
      st.verificationCount + (matchedCellCount g.flatten + 1) by omega]
  · simp only [verifyS, h, Bool.true_eq_false, if_false, verifyStep_spec st e v]

/-- Witness for C8 (amended): concrete state deltas on a covenant-accepted
instance with verification count 7 — encode bumps the count to 8, decoding
the grid `[["0", "√1"]]` (one catalog-matched non-zero cell plus the final
log) bumps it to 9, a catalog-matched verify bumps it to 8, and
generateIdentitySet leaves it at 7. -/
theorem claim8_amended_witness :
    encodeS ⟨true, none, 7⟩ [70] false = .ok (⟨true, none, 8⟩, encode [70] false) ∧
    generateIdentitySetS ⟨true, none, 7⟩ [65] 3 =
      .ok (⟨true, none, 7⟩, generateIdentitySet [65] 3) ∧
    decodeS ⟨true, none, 7⟩ [["0", "√1"]] = .ok (⟨true, none, 9⟩, decode [["0", "√1"]]) ∧
    verifyS ⟨true, none, 7⟩ "√1" 1 = .ok (⟨true, none, 8⟩, verify "√1" 1) :=
  ⟨(claim8_amended ⟨true, none, 7⟩ rfl [70] false [["0", "√1"]] [65] 3 "√1" 1).1,
   (claim8_amended ⟨true, none, 7⟩ rfl [70] false [["0", "√1"]] [65] 3 "√1" 1).2.1,
   (claim8_amended ⟨true, none, 7⟩ rfl [70] false [["0", "√1"]] [65] 3 "√1" 1).2.2.1,
   (claim8_amended ⟨true, none, 7⟩ rfl [70] false [["0", "√1"]] [65] 3 "√1" 1).2.2.2⟩

/-- C9: on a freshly constructed instance each of encode, verify, decode and
generateIdentitySet throws until `acceptCovenant` succeeds; `acceptCovenant`
itself throws unless the agreement's `humanitarianCommitment` is truthy, and
after one successful acceptance all four operations return normally. -/
theorem claim9_covenant_gate :
    (∀ text adv, encodeS initState text adv =
      .error "Must accept Memorial Covenant before encoding") ∧
    (∀ e v, verifyS initState e v =
      .error "Must accept Memorial Covenant before verification") ∧
    (∀ g, decodeS initState g =
      .error "Must accept Memorial Covenant before decoding") ∧
    (∀ n k, generateIdentitySetS initState n k =
      .error "Must accept Memorial Covenant before identity generation") ∧
    (∀ st id, acceptCovenant st id false =
      .error "Covenant requires commitment to humanity's betterment") ∧
    (∀ st id st' r, acceptCovenant st id true = .ok (st', r) →
      st'.covenantAccepted = true ∧ r = true) ∧
    (∀ st, st.covenantAccepted = true → ∀ text adv e v g n k,
      (∃ p, encodeS st text adv = .ok p) ∧ (∃ p, verifyS st e v = .ok p) ∧
      (∃ p, decodeS st g = .ok p) ∧ (∃ p, generateIdentitySetS st n k = .ok p)) := by
  refine ⟨fun _ _ => rfl, fun _ _ => rfl, fun _ => rfl, fun _ _ => rfl, fun _ _ => rfl,
    ?_, ?_⟩
  · intro st id st' r hacc
    rw [acceptCovenant] at hacc
    simp only [Bool.true_eq_false, if_false, Except.ok.injEq, Prod.mk.injEq] at hacc
    obtain ⟨hst, hr⟩ := hacc
    subst hst
    exact ⟨rfl, hr.symm⟩
  · intro st h text adv e v g n k
    refine ⟨⟨(logVerification st, encode text adv), ?_⟩,
      ⟨verifyStep st e v, ?_⟩,
      ⟨(logVerification (decodeCellsS st g.flatten).1,
        decodeBytes (decodeCellsS st g.flatten).2), ?_⟩,
      ⟨(st, generateIdentitySet n k), ?_⟩⟩
    · simp [encodeS, h]
    · simp [verifyS, h]
    · simp [decodeS, h]
    · simp [generateIdentitySetS, h]

/-- Witness for C9: the gate on the fresh instance, one concrete successful
acceptance, and a successful post-acceptance encode. -/
theorem claim9_covenant_gate_witness :
    encodeS initState [70] false = .error "Must accept Memorial Covenant before encoding" ∧
    (acceptCovenant initState "MIT" true =
      .ok (⟨true, some "MIT", 0⟩, true) ∧ (FCState.mk true (some "MIT") 0).covenantAccepted = true) ∧
    (∃ p, encodeS ⟨true, some "MIT", 0⟩ [70] false = .ok p) :=
  ⟨claim9_covenant_gate.1 [70] false,
   ⟨rfl, (claim9_covenant_gate.2.2.2.2.2.1 initState "MIT" ⟨true, some "MIT", 0⟩ true rfl).1⟩,
   (claim9_covenant_gate.2.2.2.2.2.2 ⟨true, some "MIT", 0⟩ rfl [70] false "√1" 1 [] [] 0).1⟩

/-- C10: `verify` returns false for every expression not textually among the
16 standard catalog entries, whatever the expected value — in particular the
advanced expressions all fail verification — and consequently a grid encoded
with the advanced pool that placed an advanced expression on a 1-bit (here
`encode("www", true)`, whose 17th and 18th 1-bits draw the advanced
expressions) does not decode back to the original text. -/
theorem claim10_catalog_membership :
    (∀ (e : String) (v : ℚ), e ∉ getStandardFractions.map Fraction.expr → verify e v = false) ∧
    decode (encode [119, 119, 119] true) ≠ [119, 119, 119] := by
  constructor
  · intro e v he
    have hnone : getStandardFractions.find? (fun f => decide (f.expr = e)) = none := by
      rw [List.find?_eq_none]
      intro f hf hpf
      exact he (List.mem_map.mpr ⟨f, hf, of_decide_eq_true hpf⟩)
    unfold verify
    rw [hnone]
  · decide

/-- Witness for C10: the advanced expression "sin²θ + cos²θ" fails
verification against expected value 1. -/
theorem claim10_catalog_membership_witness : verify "sin²θ + cos²θ" 1 = false :=
  claim10_catalog_membership.1 "sin²θ + cos²θ" 1 (by decide)

end FractionalCore
